import Mathlib

/-!
Shallow embedding of the decoding-instrumentation scripts of the
neuroviz-internship repository (src/utils.py,
src/Entropy_experiments/corpus_entropy_forced.py,
src/Hesitation_experiments/get_probable_tokens.py,
src/Hesitation_experiments/test.py).

Modelling conventions:
* token ids are `Nat`; score (logit) and probability values are `ℚ`
  (the floats of the source, with `float(-inf)` modelled as `⊥ : WithBot ℚ`);
* the external JoeyNMT model is a black box: each decoder receives a
  `predict : List Nat → List ℚ` argument standing for one call of the
  model's forward pass on the current history (the encoder output and the
  masks are already applied inside it); where a script needs them
  separately (`greedy_decoding`), the encoding appears explicitly;
* the external numeric routines `Softmax`, `LogSoftmax` and
  `scipy.stats.entropy` are opaque function parameters collected in
  `Externals`; no claim in scope depends on their values;
* `numpy` random draws are modelled by an explicit source of choices
  (a function from the step number, or a plain `Nat`), so every
  definition stays executable.
-/

/-- Maximum of a list of extended rationals, `⊥` for the empty list.
Models the value part of a `torch.max(t, dim=1)` call on a float row in
which masked-out cells hold `-inf`. -/
def listMax (w : List (WithBot ℚ)) : WithBot ℚ := w.foldr max ⊥

/-- Index of the first occurrence of the maximum, as `torch.max(t, dim=1)`
returns it (first maximal index). -/
def maxIdx : List (WithBot ℚ) → Nat
  | [] => 0
  | a :: t => if listMax t ≤ a then 0 else maxIdx t + 1

/-- `torch.max(logits, dim=1)` on an unmasked (all-finite) score row:
index of the first maximal score. -/
def argmax_token (scores : List ℚ) : Nat :=
  maxIdx (scores.map (fun (q : ℚ) => (q : WithBot ℚ)))

/-- One output row of the corpus scripts (`corpus_entropy_forced.py` and
`get_probable_tokens.py`): `res_df.loc[token_counter] = {token_position,
sentence_length, entropy}`.  `sentence_length` is written as `-1` first
and backfilled after the sentence finishes, hence `Int`. -/
structure Row where
  token_position : Nat
  sentence_length : Int
  entropy : ℚ
deriving DecidableEq, Repr

/-- The opaque external numeric routines used by the scripts. -/
structure Externals where
  soft : List ℚ → List ℚ
  logsoft : List ℚ → List ℚ
  ent : List ℚ → ℚ

/-- Backfill of one row: the slice assignment
`res_df["sentence_length"][...] = i` on a row it covers. -/
def setLen (n : Int) (r : Row) : Row :=
  { r with sentence_length := n }

/-- Inner loop of `corpus_entropy_forced.py` (lines 50-75):
`for i, gold_trg_token in enumerate(target)` — record one row per gold
token, then append the gold token to the history `ys`.  Returns the
recorded rows, the final value of the loop variable `i` (which Python
retains after the loop; `i - 1` in the base case makes the value for a
run of `n` iterations started at `i₀` equal `i₀ + n - 1`), and the final
history. -/
def forcedAux (predict : List Nat → List ℚ) (ent : List ℚ → ℚ) :
    List Nat → Nat → List Nat → List Row × Nat × List Nat
  | [], i, ys => ([], i - 1, ys)
  | g :: rest, i, ys =>
    let scores := predict ys
    let row : Row := ⟨i, -1, ent scores⟩
    let p := forcedAux predict ent rest (i + 1) (ys ++ [g])
    (row :: p.1, p.2.1, p.2.2)

/-- One sentence of `corpus_entropy_forced.py`: the gold target is the
reference tokens with the end-of-sequence marker appended
(`target = [...] + [EOS_TOKEN]`), the history starts at `[bos]`. -/
def forcedSentence (predict : List Nat → List ℚ) (ent : List ℚ → ℚ)
    (gold : List Nat) (bos eos : Nat) : List Row × Nat × List Nat :=
  forcedAux predict ent (gold ++ [eos]) 0 [bos]

/-- The rows of one forced sentence after the backfill
`res_df["sentence_length"][bos_id:bos_id+i+1] = i` (restricted to that
sentence; the corpus-level slice is `setSlice` below and is proved to
agree). -/
def forcedBackfilled (predict : List Nat → List ℚ) (ent : List ℚ → ℚ)
    (gold : List Nat) (bos eos : Nat) : List Row :=
  let p := forcedSentence predict ent gold bos eos
  p.1.map (setLen (Int.ofNat p.2.1))

/-- Inner loop of `get_probable_tokens.py` (lines 27-59):
`for i in range(max_output_length)` — record a row, append the model's
argmax token to the history, `break` once that token is the
end-of-sequence marker.  Returns rows, the final value of `i`, and the
final history. -/
def freeAux (predict : List Nat → List ℚ) (ent : List ℚ → ℚ) (eos : Nat) :
    Nat → Nat → List Nat → List Row × Nat × List Nat
  | 0, i, ys => ([], i - 1, ys)
  | b + 1, i, ys =>
    let scores := predict ys
    let pred := argmax_token scores
    let row : Row := ⟨i, -1, ent scores⟩
    let ys2 := ys ++ [pred]
    if pred = eos then ([row], i, ys2)
    else
      let p := freeAux predict ent eos b (i + 1) ys2
      (row :: p.1, p.2.1, p.2.2)

/-- One sentence of `get_probable_tokens.py`: budget `maxLen`
(`max_output_length` from the configuration), history starts at `[bos]`. -/
def freeSentence (predict : List Nat → List ℚ) (ent : List ℚ → ℚ)
    (maxLen bos eos : Nat) : List Row × Nat × List Nat :=
  freeAux predict ent eos maxLen 0 [bos]

/-- The rows of one free sentence after the backfill. -/
def freeBackfilled (predict : List Nat → List ℚ) (ent : List ℚ → ℚ)
    (maxLen bos eos : Nat) : List Row :=
  let p := freeSentence predict ent maxLen bos eos
  p.1.map (setLen (Int.ofNat p.2.1))

/-- `setSliceFrom v a b j df`: the slice assignment
`df["sentence_length"][a:b] = v` applied to the rows of `df`, which sit
at absolute positions `j, j+1, ...`. -/
def setSliceFrom (v : Int) (a b : Nat) : Nat → List Row → List Row
  | _, [] => []
  | j, r :: t =>
    (if a ≤ j ∧ j < b then setLen v r else r) :: setSliceFrom v a b (j + 1) t

/-- `res_df["sentence_length"][a:b] = v` on the whole accumulated frame. -/
def setSlice (df : List Row) (a b : Nat) (v : Int) : List Row :=
  setSliceFrom v a b 0 df

/-- One iteration of the sentence loop of `corpus_entropy_forced.py`:
remember `bos_id = token_counter` (the current frame length), run the
sentence, append its rows, then backfill
`res_df["sentence_length"][bos_id:bos_id+i+1] = i`. -/
def corpusStepForced (ent : List ℚ → ℚ) (bos eos : Nat) (df : List Row)
    (sent : (List Nat → List ℚ) × List Nat) : List Row :=
  let bos_id := df.length
  let p := forcedSentence sent.1 ent sent.2 bos eos
  setSlice (df ++ p.1) bos_id (bos_id + p.2.1 + 1) (Int.ofNat p.2.1)

/-- The whole forced corpus run: each sentence is its per-sentence
predictor (the model applied to that sentence's encoder output) paired
with its gold token ids. -/
def corpusForced (ent : List ℚ → ℚ) (bos eos : Nat)
    (sents : List ((List Nat → List ℚ) × List Nat)) : List Row :=
  sents.foldl (corpusStepForced ent bos eos) []

/-- One iteration of the sentence loop of `get_probable_tokens.py`. -/
def corpusStepFree (ent : List ℚ → ℚ) (maxLen bos eos : Nat) (df : List Row)
    (predict : List Nat → List ℚ) : List Row :=
  let bos_id := df.length
  let p := freeSentence predict ent maxLen bos eos
  setSlice (df ++ p.1) bos_id (bos_id + p.2.1 + 1) (Int.ofNat p.2.1)

/-- The whole free corpus run of `get_probable_tokens.py`. -/
def corpusFree (ent : List ℚ → ℚ) (maxLen bos eos : Nat)
    (sents : List (List Nat → List ℚ)) : List Row :=
  sents.foldl (corpusStepFree ent maxLen bos eos) []

/-- One output row of `utils.greedy_decoding` (lines 127-132). -/
structure GRow where
  predicted_token_idx : Nat
  predicted_log_proba : ℚ
  log_probas : List ℚ
  probas : List ℚ
  entropy : ℚ
deriving DecidableEq

/-- The `while(True)` loop of `utils.greedy_decoding` (lines 107-139).
The source loop has no step budget: it exits only when the argmax token
is the end-of-sequence marker.  It is modelled with explicit fuel;
`none` means the loop is still running after `fuel` iterations (so
`∀ fuel, ... = none` states non-termination).  On success it returns
`predicted_translation` and the recorded rows. -/
def greedyAux (ext : Externals) (predict : List Nat → List ℚ) (eos : Nat) :
    Nat → List Nat → Option (List Nat × List GRow)
  | 0, _ => none
  | fuel + 1, ys =>
    let scores := predict ys
    let lp := ext.logsoft scores
    let pr := ext.soft scores
    let pred := argmax_token scores
    let row : GRow := ⟨pred, lp.getD pred 0, lp, pr, ext.ent pr⟩
    let ys2 := ys ++ [pred]
    if pred = eos then some ([], [row])
    else
      match greedyAux ext predict eos fuel ys2 with
      | none => none
      | some p => some (pred :: p.1, row :: p.2)

/-- Shape of `encoder_output` as the scripts see it: a batch of encoded
sentences (`shape[0]` sentences of length `shape[1]`). -/
structure Encoding where
  batch : Nat
  seqLen : Nat
deriving DecidableEq

/-- Possible outcomes of a `greedy_decoding` call.  `inputShapeError` is
the failure mode the specification's error taxonomy posits for an
encoding that is not a single sentence; the source defines no such
exception and performs no shape check, so the embedding can only ever
produce it if some code path constructs it. -/
inductive DecodeResult where
  | ok (translation : List Nat) (rows : List GRow)
  | inputShapeError
  | outOfFuel
deriving DecidableEq

/-- `utils.greedy_decoding` (lines 67-141) including its input handling:
`src_mask` is built from `encoder_output.shape[1]` alone, the history
starts as the single row `[[bos_index]]`, and no check of the batch
dimension `shape[0]` is performed before entering the loop.  The
external predictor receives the encoding and the mask, as the model
call does. -/
def greedy_decoding (ext : Externals)
    (predict : Encoding → List Bool → List Nat → List ℚ)
    (enc : Encoding) (bos eos fuel : Nat) : DecodeResult :=
  let src_mask := List.replicate enc.seqLen true
  match greedyAux ext (predict enc src_mask) eos fuel [bos] with
  | some p => DecodeResult.ok p.1 p.2
  | none => DecodeResult.outOfFuel

/-- One output row of `test.forced_decoding` (lines 94-99). -/
structure FRow where
  predicted_token_idx : Nat
  predicted_log_proba : ℚ
  gold_token_idx : Nat
  gold_log_proba : ℚ
  log_probas : List ℚ
deriving DecidableEq

/-- The `for gold_trg_token in target` loop of `test.forced_decoding`
(lines 75-101): one row per gold token; the token appended to the
history is always the gold token, never the prediction.  Returns the
rows and the final history. -/
def forced_decoding_aux (ext : Externals) (predict : List Nat → List ℚ) :
    List Nat → List Nat → List FRow × List Nat
  | [], ys => ([], ys)
  | g :: rest, ys =>
    let scores := predict ys
    let lp := ext.logsoft scores
    let pred := argmax_token scores
    let row : FRow := ⟨pred, lp.getD pred 0, g, lp.getD g 0, lp⟩
    let p := forced_decoding_aux ext predict rest (ys ++ [g])
    (row :: p.1, p.2)

/-- `test.forced_decoding` (lines 36-103): the supplied target tokens
get the end-of-sequence marker appended
(`target = [...] + [EOS_TOKEN]`), the history starts at `[bos]`. -/
def forced_decoding (ext : Externals) (predict : List Nat → List ℚ)
    (gold : List Nat) (bos eos : Nat) : List FRow × List Nat :=
  forced_decoding_aux ext predict (gold ++ [eos]) [bos]

/-- The `for _ in range(max_output_length)` loop of
`utils.ancestral_sampling` (lines 170-195): the next token is drawn from
the softmax distribution by `rng.choice(len(vocab), p=probas)`, modelled
by the explicit draw function `samp` (step number and distribution to
chosen id).  Returns `predicted_translation` and the final history. -/
def ancestralAux (samp : Nat → List ℚ → Nat) (soft : List ℚ → List ℚ)
    (predict : List Nat → List ℚ) (eos : Nat) :
    Nat → Nat → List Nat → List Nat × List Nat
  | 0, _, ys => ([], ys)
  | b + 1, i, ys =>
    let probas := soft (predict ys)
    let pred := samp i probas
    let ys2 := ys ++ [pred]
    if pred = eos then ([], ys2)
    else
      let p := ancestralAux samp soft predict eos b (i + 1) ys2
      (pred :: p.1, p.2)

/-- `utils.ancestral_sampling` (lines 143-197). -/
def ancestral_sampling (samp : Nat → List ℚ → Nat) (soft : List ℚ → List ℚ)
    (predict : List Nat → List ℚ) (maxLen bos eos : Nat) :
    List Nat × List Nat :=
  ancestralAux samp soft predict eos maxLen 0 [bos]

/-- The `for j in range(k)` extraction loop of `utils.top_k_sampling`
(lines 245-250) on the working copy `w` of the probability row:
`j`-th round takes `torch.max`, records `(int(max_token),
float(max_prob))`, and masks the cell with `float(-inf)`
(`probas[0][max_token] = float('-inf')`), here `⊥`. -/
def top_k_extract : Nat → List (WithBot ℚ) → List (Nat × ℚ)
  | 0, _ => []
  | k + 1, w =>
    let m := maxIdx w
    (m, (w.getD m ⊥).unbot' 0) :: top_k_extract k (w.set m ⊥)

/-- One step of `utils.top_k_sampling` (lines 240-254): extract the `k`
largest probabilities, renormalize by their accumulated sum `z`, and
draw one of the extracted ids (`rng.choice(new_dist_ids,
p=new_dist_probs)`, modelled by reading position `r % k` of the id
array).  Returns the extracted pairs, the renormalized probabilities and
the chosen token. -/
def top_k_step (probas : List ℚ) (k : Nat) (r : Nat) :
    List (Nat × ℚ) × List ℚ × Nat :=
  let e := top_k_extract k (probas.map (fun (q : ℚ) => (q : WithBot ℚ)))
  let new_dist_ids := e.map Prod.fst
  let z := (e.map Prod.snd).sum
  let new_dist_probs := (e.map Prod.snd).map (fun q => q / z)
  (e, new_dist_probs, new_dist_ids.getD (r % new_dist_ids.length) 0)

/-- The `for i in range(max_output_length)` loop of
`utils.top_k_sampling` (lines 226-261): the predictor composed with the
softmax yields the probability row, one top-k draw picks the token,
`break` on the end-of-sequence marker before it is appended to the
translation. -/
def topKAux (r : Nat → Nat) (soft : List ℚ → List ℚ)
    (predict : List Nat → List ℚ) (eos k : Nat) :
    Nat → Nat → List Nat → List Nat × List Nat
  | 0, _, ys => ([], ys)
  | b + 1, i, ys =>
    let probas := soft (predict ys)
    let pred := (top_k_step probas k (r i)).2.2
    let ys2 := ys ++ [pred]
    if pred = eos then ([], ys2)
    else
      let p := topKAux r soft predict eos k b (i + 1) ys2
      (pred :: p.1, p.2)

/-- `utils.top_k_sampling` (lines 199-263). -/
def top_k_sampling (r : Nat → Nat) (soft : List ℚ → List ℚ)
    (predict : List Nat → List ℚ) (maxLen bos eos k : Nat) :
    List Nat × List Nat :=
  topKAux r soft predict eos k maxLen 0 [bos]

/-- The `while(True)` loop of `utils.predict_wrong_token`
(lines 301-306): take the argmax of the score row; return it unless it
is the designated gold token, otherwise mask that cell with
`float('-inf')` and retry.  Modelled with fuel (`none` = still looping),
one unit per argmax iteration. -/
def predictWrongTokenAux (gold : Nat) : Nat → List (WithBot ℚ) → Option Nat
  | 0, _ => none
  | fuel + 1, w =>
    let m := maxIdx w
    if m = gold then predictWrongTokenAux gold fuel (w.set m ⊥)
    else some m

/-- `utils.predict_wrong_token` (lines 286-306) on the final score row
`logits[:, -1]` produced by the model call. -/
def predict_wrong_token (gold : Nat) (logits : List ℚ) (fuel : Nat) :
    Option Nat :=
  predictWrongTokenAux gold fuel (logits.map (fun (q : ℚ) => (q : WithBot ℚ)))

/-! ### Basic facts about `listMax`, `maxIdx` and the working vectors -/

theorem listMax_cons (a : WithBot ℚ) (t : List (WithBot ℚ)) :
    listMax (a :: t) = max a (listMax t) := rfl

theorem getD_le_listMax (w : List (WithBot ℚ)) (i : Nat) :
    w.getD i ⊥ ≤ listMax w := by
  induction w generalizing i with
  | nil => simp [listMax, List.getD]
  | cons a t ih =>
    cases i with
    | zero =>
      rw [listMax_cons]
      exact le_trans (le_of_eq List.getD_cons_zero) (le_max_left a (listMax t))
    | succ j =>
      calc (a :: t).getD (j + 1) ⊥ = t.getD j ⊥ := List.getD_cons_succ
        _ ≤ listMax t := ih j
        _ ≤ listMax (a :: t) := by rw [listMax_cons]; exact le_max_right _ _

theorem maxIdx_lt_length (w : List (WithBot ℚ)) (h : w ≠ []) :
    maxIdx w < w.length := by
  induction w with
  | nil => exact absurd rfl h
  | cons a t ih =>
    by_cases hc : listMax t ≤ a
    · simp [maxIdx, hc]
    · have ht : t ≠ [] := by
        intro he
        subst he
        exact hc bot_le
      simp only [maxIdx, if_neg hc, List.length_cons]
      exact Nat.succ_lt_succ (ih ht)

theorem getD_maxIdx (w : List (WithBot ℚ)) :
    w.getD (maxIdx w) ⊥ = listMax w := by
  induction w with
  | nil => rfl
  | cons a t ih =>
    by_cases hc : listMax t ≤ a
    · simp only [maxIdx, if_pos hc, List.getD_cons_zero, listMax_cons]
      exact (max_eq_left hc).symm
    · simp only [maxIdx, if_neg hc, List.getD_cons_succ, listMax_cons]
      rw [ih]
      exact (max_eq_right (le_of_lt (not_le.mp hc))).symm

theorem getD_set_self {α : Type} (w : List α) (i : Nat) (v d : α)
    (h : i < w.length) : (w.set i v).getD i d = v := by
  induction w generalizing i with
  | nil => simp at h
  | cons a t ih =>
    cases i with
    | zero => rfl
    | succ j => exact ih j (by simpa using h)

theorem getD_set_other {α : Type} (w : List α) (i j : Nat) (v d : α)
    (h : j ≠ i) : (w.set i v).getD j d = w.getD j d := by
  induction w generalizing i j with
  | nil => rfl
  | cons a t ih =>
    cases i with
    | zero =>
      cases j with
      | zero => exact absurd rfl h
      | succ l => rfl
    | succ m =>
      cases j with
      | zero => rfl
      | succ l => exact ih m l (fun he => h (by rw [he]))

/-- Number of cells of the working vector not masked with `-inf`. -/
def nbot : List (WithBot ℚ) → Nat
  | [] => 0
  | a :: t => (if a = ⊥ then 0 else 1) + nbot t

theorem ne_nil_of_nbot_pos (w : List (WithBot ℚ)) (h : 0 < nbot w) :
    w ≠ [] := by
  intro he
  subst he
  simp [nbot] at h

theorem listMax_ne_bot (w : List (WithBot ℚ)) (h : 0 < nbot w) :
    listMax w ≠ ⊥ := by
  induction w with
  | nil => simp [nbot] at h
  | cons a t ih =>
    by_cases ha : a = ⊥
    · have ht : 0 < nbot t := by simpa [nbot, ha] using h
      intro hb
      apply ih ht
      have h1 : listMax t ≤ listMax (a :: t) := by
        rw [listMax_cons]; exact le_max_right _ _
      rw [hb] at h1
      exact le_bot_iff.mp h1
    · intro hb
      apply ha
      have h1 : a ≤ listMax (a :: t) := by
        rw [listMax_cons]; exact le_max_left _ _
      rw [hb] at h1
      exact le_bot_iff.mp h1

theorem nbot_set_bot (w : List (WithBot ℚ)) (i : Nat) (hi : i < w.length)
    (hne : w.getD i ⊥ ≠ ⊥) : nbot (w.set i ⊥) + 1 = nbot w := by
  induction w generalizing i with
  | nil => simp at hi
  | cons a t ih =>
    cases i with
    | zero =>
      have ha : a ≠ ⊥ := by simpa [List.getD_cons_zero] using hne
      simp [nbot, ha]
      omega
    | succ j =>
      have hrec : nbot (t.set j ⊥) + 1 = nbot t :=
        ih j (by simpa using hi) (by simpa [List.getD_cons_succ] using hne)
      show (if a = ⊥ then 0 else 1) + nbot (t.set j ⊥) + 1
          = (if a = ⊥ then 0 else 1) + nbot t
      omega

theorem nbot_map_coe (l : List ℚ) :
    nbot (l.map (fun (q : ℚ) => (q : WithBot ℚ))) = l.length := by
  induction l with
  | nil => rfl
  | cons a t ih =>
    show (if (a : WithBot ℚ) = ⊥ then 0 else 1)
        + nbot (t.map (fun (q : ℚ) => (q : WithBot ℚ))) = t.length + 1
    rw [if_neg WithBot.coe_ne_bot, ih]
    omega

theorem getD_map_coe (l : List ℚ) (i : Nat) (h : i < l.length) :
    (l.map (fun (q : ℚ) => (q : WithBot ℚ))).getD i ⊥ = ((l.getD i 0 : ℚ) : WithBot ℚ) := by
  induction l generalizing i with
  | nil => simp at h
  | cons a t ih =>
    cases i with
    | zero => rfl
    | succ j => exact ih j (by simpa using h)

theorem sum_map_div (l : List ℚ) (z : ℚ) :
    (l.map (fun q => q / z)).sum = l.sum / z := by
  induction l with
  | nil => simp
  | cons a t ih => simp [ih, add_div]

theorem getD_mem_of_lt {α : Type} (l : List α) (i : Nat) (d : α)
    (h : i < l.length) : l.getD i d ∈ l := by
  induction l generalizing i with
  | nil => simp at h
  | cons a t ih =>
    cases i with
    | zero => exact List.mem_cons_self a t
    | succ j => exact List.mem_cons_of_mem a (ih j (by simpa using h))

/-- Full specification of the extraction loop of `utils.top_k_sampling`:
it produces `k` pairs, each pair is an entry of the working vector, the
extracted indices are distinct, and every extracted probability
dominates every cell that was never extracted. -/
theorem top_k_extract_spec (k : Nat) :
    ∀ w : List (WithBot ℚ), k ≤ nbot w →
      (top_k_extract k w).length = k ∧
      (∀ pr ∈ top_k_extract k w,
        pr.1 < w.length ∧ w.getD pr.1 ⊥ = (pr.2 : WithBot ℚ)) ∧
      ((top_k_extract k w).map Prod.fst).Nodup ∧
      (∀ pr ∈ top_k_extract k w, ∀ l, l < w.length →
        l ∉ (top_k_extract k w).map Prod.fst →
        w.getD l ⊥ ≤ (pr.2 : WithBot ℚ)) := by
  induction k with
  | zero =>
    intro w _
    refine ⟨rfl, ?_, ?_, ?_⟩ <;> simp [top_k_extract]
  | succ k ih =>
    intro w hk
    have hpos : 0 < nbot w := lt_of_lt_of_le (Nat.succ_pos k) hk
    have hwne : w ≠ [] := ne_nil_of_nbot_pos w hpos
    have hMne : listMax w ≠ ⊥ := listMax_ne_bot w hpos
    have hmlt : maxIdx w < w.length := maxIdx_lt_length w hwne
    obtain ⟨p₀, hp₀⟩ := WithBot.ne_bot_iff_exists.mp hMne
    have hgd : w.getD (maxIdx w) ⊥ = (p₀ : WithBot ℚ) := by
      rw [getD_maxIdx]
      exact hp₀.symm
    have hunfold : top_k_extract (k + 1) w
        = (maxIdx w, p₀) :: top_k_extract k (w.set (maxIdx w) ⊥) := by
      simp only [top_k_extract]
      rw [hgd]
      rfl
    have hnb2 : nbot (w.set (maxIdx w) ⊥) + 1 = nbot w :=
      nbot_set_bot w (maxIdx w) hmlt (by rw [hgd]; exact WithBot.coe_ne_bot)
    have hk2 : k ≤ nbot (w.set (maxIdx w) ⊥) := by omega
    obtain ⟨ihlen, ihent, ihnd, ihdom⟩ := ih (w.set (maxIdx w) ⊥) hk2
    have hlen2 : (w.set (maxIdx w) ⊥).length = w.length := List.length_set w _ _
    have hbot2 : (w.set (maxIdx w) ⊥).getD (maxIdx w) ⊥ = ⊥ :=
      getD_set_self w (maxIdx w) ⊥ ⊥ hmlt
    have hent : ∀ pr ∈ top_k_extract k (w.set (maxIdx w) ⊥),
        pr.1 ≠ maxIdx w ∧ pr.1 < w.length ∧ w.getD pr.1 ⊥ = (pr.2 : WithBot ℚ) := by
      intro pr hpr
      obtain ⟨h1, h2⟩ := ihent pr hpr
      have hne : pr.1 ≠ maxIdx w := by
        intro he
        rw [he, hbot2] at h2
        exact WithBot.coe_ne_bot h2.symm
      refine ⟨hne, by rwa [hlen2] at h1, ?_⟩
      rw [← getD_set_other w (maxIdx w) pr.1 ⊥ ⊥ hne]
      exact h2
    refine ⟨?_, ?_, ?_, ?_⟩
    · rw [hunfold, List.length_cons, ihlen]
    · intro pr hpr
      rw [hunfold] at hpr
      rcases List.mem_cons.mp hpr with he | hm
      · subst he
        exact ⟨hmlt, hgd⟩
      · exact ⟨(hent pr hm).2.1, (hent pr hm).2.2⟩
    · rw [hunfold]
      simp only [List.map_cons, List.nodup_cons]
      refine ⟨?_, ihnd⟩
      intro hmem
      obtain ⟨pr, hpr, hfst⟩ := List.mem_map.mp hmem
      exact (hent pr hpr).1 hfst
    · intro pr hpr l hl hnotin
      rw [hunfold] at hpr hnotin
      simp only [List.map_cons, List.mem_cons] at hnotin
      push_neg at hnotin
      obtain ⟨hlm, hlnotin⟩ := hnotin
      rcases List.mem_cons.mp hpr with he | hm
      · subst he
        exact le_trans (getD_le_listMax w l) (le_of_eq hp₀.symm)
      · have hd := ihdom pr hm l (by rwa [hlen2]) hlnotin
        rwa [getD_set_other w (maxIdx w) l ⊥ ⊥ hlm] at hd

/-! ### Shape of the forced and free sentence loops -/

/-- The forced loop lays down one row per target token, leaves the loop
variable at `i₀ + n - 1`, and appends exactly the target tokens to the
history. -/
theorem forcedAux_spec (predict : List Nat → List ℚ) (ent : List ℚ → ℚ) :
    ∀ (target : List Nat) (i : Nat) (ys : List Nat),
      (forcedAux predict ent target i ys).1.length = target.length ∧
      (forcedAux predict ent target i ys).2.1 = i + target.length - 1 ∧
      (forcedAux predict ent target i ys).2.2 = ys ++ target := by
  intro target
  induction target with
  | nil =>
    intro i ys
    exact ⟨rfl, rfl, by simp [forcedAux]⟩
  | cons g rest ih =>
    intro i ys
    obtain ⟨h1, h2, h3⟩ := ih (i + 1) (ys ++ [g])
    simp only [forcedAux, List.length_cons]
    refine ⟨by rw [h1], ?_, ?_⟩
    · rw [h2]
      omega
    · rw [h3]
      simp

/-- The free loop: the history grows by the selected tokens `ts`, one
row per selected token, the loop variable ends at `i₀ + n - 1`, at most
`b` steps run, the loop either exhausts the budget or its last selected
token is the end marker, and no earlier selected token is the end
marker. -/
theorem freeAux_spec (predict : List Nat → List ℚ) (ent : List ℚ → ℚ)
    (eos : Nat) :
    ∀ (b i : Nat) (ys : List Nat), ∃ ts : List Nat,
      (freeAux predict ent eos b i ys).2.2 = ys ++ ts ∧
      ts.length = (freeAux predict ent eos b i ys).1.length ∧
      (freeAux predict ent eos b i ys).2.1
        = i + (freeAux predict ent eos b i ys).1.length - 1 ∧
      (freeAux predict ent eos b i ys).1.length ≤ b ∧
      ((freeAux predict ent eos b i ys).1.length = b ∨
        ts.getLast? = some eos) ∧
      eos ∉ ts.dropLast := by
  intro b
  induction b with
  | zero =>
    intro i ys
    exact ⟨[], by simp [freeAux], by simp [freeAux], by simp [freeAux],
      by simp [freeAux], Or.inl (by simp [freeAux]), by simp⟩
  | succ b ih =>
    intro i ys
    by_cases hc : argmax_token (predict ys) = eos
    · refine ⟨[argmax_token (predict ys)], ?_, ?_, ?_, ?_, ?_, ?_⟩
      · simp [freeAux, hc]
      · simp [freeAux, hc]
      · simp [freeAux, hc]
      · simp [freeAux, hc]
      · right
        simp [hc]
      · simp
    · obtain ⟨ts, h1, h2, h3, h4, h5, h6⟩ := ih (i + 1)
        (ys ++ [argmax_token (predict ys)])
      refine ⟨argmax_token (predict ys) :: ts, ?_, ?_, ?_, ?_, ?_, ?_⟩
      · simp only [freeAux, if_neg hc]
        rw [h1]
        simp
      · simp only [freeAux, if_neg hc, List.length_cons]
        rw [h2]
      · simp only [freeAux, if_neg hc, List.length_cons]
        rw [h3]
        omega
      · simp only [freeAux, if_neg hc, List.length_cons]
        omega
      · rcases h5 with h5 | h5
        · left
          simp only [freeAux, if_neg hc, List.length_cons]
          rw [h5]
        · right
          cases ts with
          | nil => simp at h5
          | cons x l => rw [List.getLast?_cons_cons]; exact h5
      · cases ts with
        | nil => simp
        | cons x l =>
          rw [List.dropLast_cons₂]
          intro hmem
          rcases List.mem_cons.mp hmem with he | hm
          · exact hc he.symm
          · exact h6 hm

/-! ### The corpus-level slice assignment -/

theorem setSliceFrom_of_le (v : Int) (a b : Nat) :
    ∀ (df : List Row) (j : Nat), j + df.length ≤ a →
      setSliceFrom v a b j df = df := by
  intro df
  induction df with
  | nil => intro j _; rfl
  | cons r t ih =>
    intro j hj
    simp only [List.length_cons] at hj
    have hna : ¬ (a ≤ j ∧ j < b) := by
      intro hco
      omega
    simp only [setSliceFrom, if_neg hna]
    rw [ih (j + 1) (by omega)]

theorem setSliceFrom_append (v : Int) (a b : Nat) :
    ∀ (d1 d2 : List Row) (j : Nat),
      setSliceFrom v a b j (d1 ++ d2)
        = setSliceFrom v a b j d1 ++ setSliceFrom v a b (j + d1.length) d2 := by
  intro d1
  induction d1 with
  | nil => intro d2 j; simp [setSliceFrom]
  | cons r t ih =>
    intro d2 j
    simp only [List.cons_append, setSliceFrom, List.length_cons, List.append_eq]
    rw [ih d2 (j + 1)]
    have hj : j + 1 + t.length = j + (t.length + 1) := by omega
    rw [hj]

theorem setSliceFrom_covered (v : Int) (a b : Nat) :
    ∀ (df : List Row) (j : Nat), a ≤ j → j + df.length ≤ b →
      setSliceFrom v a b j df = df.map (setLen v) := by
  intro df
  induction df with
  | nil => intro j _ _; rfl
  | cons r t ih =>
    intro j hja hjb
    simp only [List.length_cons] at hjb
    have hco : a ≤ j ∧ j < b := ⟨hja, by omega⟩
    simp only [setSliceFrom, if_pos hco, List.map_cons]
    rw [ih (j + 1) (by omega) (by omega)]

/-- The backfill slice `[bos_id : bos_id + i + 1]` covers exactly the
rows of the sentence just appended (their count being `i + 1`) and
leaves every earlier row untouched. -/
theorem setSlice_append_covered (df rows : List Row) (i : Nat) (v : Int)
    (h : rows.length = i + 1) :
    setSlice (df ++ rows) df.length (df.length + i + 1) v
      = df ++ rows.map (setLen v) := by
  unfold setSlice
  rw [setSliceFrom_append]
  simp only [Nat.zero_add]
  rw [setSliceFrom_of_le v df.length (df.length + i + 1) df 0 (by omega)]
  rw [setSliceFrom_covered v df.length (df.length + i + 1) rows df.length
    (by omega) (by omega)]

theorem corpusStepForced_eq (ent : List ℚ → ℚ) (bos eos : Nat)
    (df : List Row) (s : (List Nat → List ℚ) × List Nat) :
    corpusStepForced ent bos eos df s
      = df ++ forcedBackfilled s.1 ent s.2 bos eos := by
  obtain ⟨hl, hi, -⟩ := forcedAux_spec s.1 ent (s.2 ++ [eos]) 0 [bos]
  have hlen : (s.2 ++ [eos]).length = s.2.length + 1 := by simp
  simp only [corpusStepForced, forcedBackfilled, forcedSentence]
  exact setSlice_append_covered df _ _ _ (by omega)

theorem corpusForced_join_from (ent : List ℚ → ℚ) (bos eos : Nat) :
    ∀ (sents : List ((List Nat → List ℚ) × List Nat)) (df : List Row),
      sents.foldl (corpusStepForced ent bos eos) df
        = df ++ (sents.map
            (fun s => forcedBackfilled s.1 ent s.2 bos eos)).flatten := by
  intro sents
  induction sents with
  | nil => intro df; simp
  | cons s rest ih =>
    intro df
    simp only [List.foldl_cons, List.map_cons, List.flatten_cons]
    rw [corpusStepForced_eq, ih]
    simp [List.append_assoc]

theorem freeSentence_rows_pos (predict : List Nat → List ℚ)
    (ent : List ℚ → ℚ) (maxLen bos eos : Nat) (h : 1 ≤ maxLen) :
    1 ≤ (freeSentence predict ent maxLen bos eos).1.length := by
  obtain ⟨ts, h1, h2, h3, h4, h5, h6⟩ :=
    freeAux_spec predict ent eos maxLen 0 [bos]
  simp only [freeSentence]
  rcases h5 with h5 | h5
  · omega
  · have hne : ts ≠ [] := by
      intro he
      subst he
      simp at h5
    have hpos : 0 < ts.length := List.length_pos.mpr hne
    omega

theorem corpusStepFree_eq (ent : List ℚ → ℚ) (maxLen bos eos : Nat)
    (h : 1 ≤ maxLen) (df : List Row) (predict : List Nat → List ℚ) :
    corpusStepFree ent maxLen bos eos df predict
      = df ++ freeBackfilled predict ent maxLen bos eos := by
  obtain ⟨ts, h1, h2, h3, h4, h5, h6⟩ :=
    freeAux_spec predict ent eos maxLen 0 [bos]
  have hpos := freeSentence_rows_pos predict ent maxLen bos eos h
  simp only [freeSentence] at hpos
  simp only [corpusStepFree, freeBackfilled, freeSentence]
  exact setSlice_append_covered df _ _ _ (by omega)

theorem corpusFree_join_from (ent : List ℚ → ℚ) (maxLen bos eos : Nat)
    (h : 1 ≤ maxLen) :
    ∀ (sents : List (List Nat → List ℚ)) (df : List Row),
      sents.foldl (corpusStepFree ent maxLen bos eos) df
        = df ++ (sents.map
            (fun predict => freeBackfilled predict ent maxLen bos eos)).flatten := by
  intro sents
  induction sents with
  | nil => intro df; simp
  | cons s rest ih =>
    intro df
    simp only [List.foldl_cons, List.map_cons, List.flatten_cons]
    rw [corpusStepFree_eq ent maxLen bos eos h, ih]
    simp [List.append_assoc]

/-! ### Helper lemmas for the claim theorems -/

/-- Every row of a backfilled sentence carries the backfilled value. -/
theorem mem_backfilled_len (rows : List Row) (v : Int) :
    ∀ r ∈ rows.map (setLen v), r.sentence_length = v := by
  intro r hr
  obtain ⟨r0, -, he⟩ := List.mem_map.mp hr
  rw [← he]
  rfl

/-- The `test.forced_decoding` loop records the gold tokens in order and
appends exactly them to the history. -/
theorem forced_decoding_aux_spec (ext : Externals)
    (predict : List Nat → List ℚ) :
    ∀ (target ys : List Nat),
      (forced_decoding_aux ext predict target ys).1.map
        (fun row => row.gold_token_idx) = target ∧
      (forced_decoding_aux ext predict target ys).2 = ys ++ target := by
  intro target
  induction target with
  | nil =>
    intro ys
    exact ⟨rfl, by simp [forced_decoding_aux]⟩
  | cons g rest ih =>
    intro ys
    obtain ⟨h1, h2⟩ := ih (ys ++ [g])
    simp only [forced_decoding_aux, List.map_cons]
    refine ⟨by rw [h1], by rw [h2]; simp⟩

/-- Whatever `predict_wrong_token` returns is never the gold token. -/
theorem predictWrongTokenAux_ne_gold (gold : Nat) :
    ∀ (fuel : Nat) (w : List (WithBot ℚ)) (res : Nat),
      predictWrongTokenAux gold fuel w = some res → res ≠ gold := by
  intro fuel
  induction fuel with
  | zero =>
    intro w res hres
    simp [predictWrongTokenAux] at hres
  | succ f ih =>
    intro w res hres
    simp only [predictWrongTokenAux] at hres
    by_cases hm : maxIdx w = gold
    · rw [if_pos hm] at hres
      exact ih _ res hres
    · rw [if_neg hm] at hres
      have he := Option.some.inj hres
      rw [← he]
      exact hm

/-- After the gold cell is masked with `-inf`, the argmax cannot land on
the gold cell again (as long as a second, unmasked cell exists). -/
theorem maxIdx_ne_gold_after_mask (logits : List ℚ) (gold : Nat)
    (h2 : 2 ≤ logits.length) (hg : gold < logits.length) :
    maxIdx ((logits.map (fun (q : ℚ) => (q : WithBot ℚ))).set gold ⊥) ≠ gold := by
  have hlenw : (logits.map (fun (q : ℚ) => (q : WithBot ℚ))).length = logits.length := by
    simp
  have hgd : (logits.map (fun (q : ℚ) => (q : WithBot ℚ))).getD gold ⊥
      = ((logits.getD gold 0 : ℚ) : WithBot ℚ) :=
    getD_map_coe logits gold hg
  have hnb : nbot ((logits.map (fun (q : ℚ) => (q : WithBot ℚ))).set gold ⊥) + 1
      = nbot (logits.map (fun (q : ℚ) => (q : WithBot ℚ))) :=
    nbot_set_bot (logits.map (fun (q : ℚ) => (q : WithBot ℚ))) gold (by omega)
      (by rw [hgd]; exact WithBot.coe_ne_bot)
  have hnb0 : nbot (logits.map (fun (q : ℚ) => (q : WithBot ℚ))) = logits.length :=
    nbot_map_coe logits
  have hpos : 0 < nbot ((logits.map (fun (q : ℚ) => (q : WithBot ℚ))).set gold ⊥) := by
    omega
  have hMne := listMax_ne_bot ((logits.map (fun (q : ℚ) => (q : WithBot ℚ))).set gold ⊥)
    hpos
  have hval := getD_maxIdx ((logits.map (fun (q : ℚ) => (q : WithBot ℚ))).set gold ⊥)
  have hbot : ((logits.map (fun (q : ℚ) => (q : WithBot ℚ))).set gold ⊥).getD gold ⊥
      = ⊥ :=
    getD_set_self (logits.map (fun (q : ℚ) => (q : WithBot ℚ))) gold ⊥ ⊥ (by omega)
  intro he
  rw [he, hbot] at hval
  exact hMne hval.symm

/-- With at least two scores, one masking round settles the loop: the
result is fixed for every fuel of at least two argmax iterations. -/
theorem predict_wrong_token_returns (gold : Nat) (logits : List ℚ)
    (h : 2 ≤ logits.length) :
    ∃ res, ∀ fuel, 2 ≤ fuel →
      predict_wrong_token gold logits fuel = some res := by
  have hwne : logits.map (fun (q : ℚ) => (q : WithBot ℚ)) ≠ [] := by
    have hln : logits ≠ [] := by
      intro he
      subst he
      simp at h
    simpa using hln
  by_cases hm : maxIdx (logits.map (fun (q : ℚ) => (q : WithBot ℚ))) = gold
  · have hglt : gold < logits.length := by
      have h1 := maxIdx_lt_length (logits.map (fun (q : ℚ) => (q : WithBot ℚ))) hwne
      rw [hm] at h1
      have h2l : (logits.map (fun (q : ℚ) => (q : WithBot ℚ))).length
          = logits.length := by simp
      omega
    have hne := maxIdx_ne_gold_after_mask logits gold h hglt
    refine ⟨maxIdx ((logits.map (fun (q : ℚ) => (q : WithBot ℚ))).set gold ⊥), ?_⟩
    intro fuel hf
    obtain ⟨f, rfl⟩ : ∃ f, fuel = f + 2 := ⟨fuel - 2, by omega⟩
    simp only [predict_wrong_token, predictWrongTokenAux]
    rw [if_pos hm, hm, if_neg hne]
  · refine ⟨maxIdx (logits.map (fun (q : ℚ) => (q : WithBot ℚ))), ?_⟩
    intro fuel hf
    obtain ⟨f, rfl⟩ : ∃ f, fuel = f + 2 := ⟨fuel - 2, by omega⟩
    simp only [predict_wrong_token, predictWrongTokenAux]
    rw [if_neg hm]

/-- With a predictor whose top score is always at index 0 and the end
marker at index 1, the `while(True)` loop of `utils.greedy_decoding`
never reaches its only exit, whatever the fuel. -/
theorem greedyAux_const_none :
    ∀ (fuel : Nat) (ys : List Nat),
      greedyAux ⟨id, id, fun _ => 0⟩ (fun _ => [5, 0]) 1 fuel ys = none := by
  intro fuel
  induction fuel with
  | zero => intro ys; rfl
  | succ f ih =>
    intro ys
    simp only [greedyAux]
    rw [if_neg (by decide : ¬ (argmax_token [5, 0] = 1))]
    rw [ih (ys ++ [argmax_token [5, 0]])]

/-- The translation returned by the greedy loop never contains the end
marker: the loop breaks before the append. -/
theorem greedyAux_no_eos (ext : Externals) (predict : List Nat → List ℚ)
    (eos : Nat) :
    ∀ (fuel : Nat) (ys : List Nat) (p : List Nat × List GRow),
      greedyAux ext predict eos fuel ys = some p → eos ∉ p.1 := by
  intro fuel
  induction fuel with
  | zero =>
    intro ys p hp
    simp [greedyAux] at hp
  | succ f ih =>
    intro ys p hp
    simp only [greedyAux] at hp
    by_cases hc : argmax_token (predict ys) = eos
    · rw [if_pos hc] at hp
      have he := Option.some.inj hp
      rw [← he]
      simp
    · rw [if_neg hc] at hp
      cases hrec : greedyAux ext predict eos f (ys ++ [argmax_token (predict ys)]) with
      | none =>
        rw [hrec] at hp
        simp at hp
      | some q =>
        rw [hrec] at hp
        simp only at hp
        have he := Option.some.inj hp
        rw [← he]
        intro hmem
        rcases List.mem_cons.mp hmem with heq | hm
        · exact hc heq.symm
        · exact ih (ys ++ [argmax_token (predict ys)]) q hrec hm

/-- Same for the ancestral-sampling loop. -/
theorem ancestralAux_no_eos (samp : Nat → List ℚ → Nat)
    (soft : List ℚ → List ℚ) (predict : List Nat → List ℚ) (eos : Nat) :
    ∀ (b i : Nat) (ys : List Nat),
      eos ∉ (ancestralAux samp soft predict eos b i ys).1 := by
  intro b
  induction b with
  | zero =>
    intro i ys
    simp [ancestralAux]
  | succ b ih =>
    intro i ys
    simp only [ancestralAux]
    by_cases hc : samp i (soft (predict ys)) = eos
    · rw [if_pos hc]
      simp
    · rw [if_neg hc]
      intro hmem
      rcases List.mem_cons.mp hmem with heq | hm
      · exact hc heq.symm
      · exact ih (i + 1) (ys ++ [samp i (soft (predict ys))]) hm

/-- Same for the top-k-sampling loop. -/
theorem topKAux_no_eos (r : Nat → Nat) (soft : List ℚ → List ℚ)
    (predict : List Nat → List ℚ) (eos k : Nat) :
    ∀ (b i : Nat) (ys : List Nat),
      eos ∉ (topKAux r soft predict eos k b i ys).1 := by
  intro b
  induction b with
  | zero =>
    intro i ys
    simp [topKAux]
  | succ b ih =>
    intro i ys
    simp only [topKAux]
    by_cases hc : (top_k_step (soft (predict ys)) k (r i)).2.2 = eos
    · rw [if_pos hc]
      simp
    · rw [if_neg hc]
      intro hmem
      rcases List.mem_cons.mp hmem with heq | hm
      · exact hc heq.symm
      · exact ih (i + 1)
          (ys ++ [(top_k_step (soft (predict ys)) k (r i)).2.2]) hm

/-! ### Claim theorems -/

/-- C3: in forced decoding the token appended to the history at every
step is the next gold token — the final history is exactly the start
marker followed by the gold sequence with the end marker appended, for
every predictor — and the run consumes the entire supplied gold
sequence plus end marker, one recorded step per token.  Both the
`test.forced_decoding` embedding and the `corpus_entropy_forced.py`
sentence loop are covered. -/
theorem C3_forced_decoding_consumes_gold (ext : Externals)
    (predict : List Nat → List ℚ) (ent : List ℚ → ℚ)
    (gold : List Nat) (bos eos : Nat) :
    (forced_decoding ext predict gold bos eos).1.map
      (fun row => row.gold_token_idx) = gold ++ [eos] ∧
    (forced_decoding ext predict gold bos eos).1.length = gold.length + 1 ∧
    (forced_decoding ext predict gold bos eos).2 = bos :: (gold ++ [eos]) ∧
    (forcedSentence predict ent gold bos eos).1.length = gold.length + 1 ∧
    (forcedSentence predict ent gold bos eos).2.2 = bos :: (gold ++ [eos]) := by
  obtain ⟨h1, h2⟩ := forced_decoding_aux_spec ext predict (gold ++ [eos]) [bos]
  obtain ⟨h3, h4, h5⟩ := forcedAux_spec predict ent (gold ++ [eos]) 0 [bos]
  simp only [forced_decoding, forcedSentence]
  refine ⟨h1, ?_, ?_, ?_, ?_⟩
  · have hl := congrArg List.length h1
    simp only [List.length_map] at hl
    simp [hl]
  · rw [h2]
    simp
  · rw [h3]
    simp
  · rw [h5]
    simp

/-- C4: forced decoding is deterministic — two runs with the same
(pointwise equal) deterministic external predictor yield identical
recorded rows and identical entropy sequences, in both embeddings. -/
theorem C4_forced_decoding_deterministic (ext : Externals)
    (ent : List ℚ → ℚ) (p₁ p₂ : List Nat → List ℚ) (gold : List Nat)
    (bos eos : Nat) (h : ∀ ys, p₁ ys = p₂ ys) :
    forced_decoding ext p₁ gold bos eos = forced_decoding ext p₂ gold bos eos ∧
    forcedSentence p₁ ent gold bos eos = forcedSentence p₂ ent gold bos eos ∧
    (forcedSentence p₁ ent gold bos eos).1.map Row.entropy
      = (forcedSentence p₂ ent gold bos eos).1.map Row.entropy := by
  have hp : p₁ = p₂ := funext h
  subst hp
  exact ⟨rfl, rfl, rfl⟩

theorem C4_forced_decoding_deterministic_witness :
    forced_decoding ⟨id, id, fun _ => 0⟩ (fun _ => [1, 0]) [0] 2 1
        = forced_decoding ⟨id, id, fun _ => 0⟩ (fun _ => [1, 0]) [0] 2 1 ∧
    forcedSentence (fun _ => [1, 0]) (fun _ => 0) [0] 2 1
        = forcedSentence (fun _ => [1, 0]) (fun _ => 0) [0] 2 1 ∧
    (forcedSentence (fun _ => [1, 0]) (fun _ => 0) [0] 2 1).1.map Row.entropy
        = (forcedSentence (fun _ => [1, 0]) (fun _ => 0) [0] 2 1).1.map
            Row.entropy :=
  C4_forced_decoding_deterministic ⟨id, id, fun _ => 0⟩ (fun _ => 0)
    (fun _ => [1, 0]) (fun _ => [1, 0]) [0] 2 1 (fun _ => rfl)

/-- C7 (code bug): `utils.greedy_decoding` has no step budget — its
`while(True)` loop exits only when the argmax token is the end marker.
With a predictor that always ranks index 0 first while the end marker
sits at index 1, the loop never finishes: for every fuel bound the run
is still `outOfFuel`, contradicting the claim that every free-mode run
terminates within its step budget. -/
theorem C7_greedy_decoding_no_budget :
    ∀ (fuel bos : Nat) (enc : Encoding),
      greedy_decoding ⟨id, id, fun _ => 0⟩ (fun _ _ _ => [5, 0]) enc bos 1 fuel
        = DecodeResult.outOfFuel := by
  intro fuel bos enc
  simp only [greedy_decoding]
  rw [greedyAux_const_none fuel [bos]]

/-- C8 counterexample: a batch-2 encoding (two sentences) is not
rejected — the loop runs to a normal result; no `InputShapeError`
occurs. -/
theorem C8_no_shape_error_counterexample :
    (Encoding.mk 2 3).batch ≠ 1 ∧
    greedy_decoding ⟨id, id, fun _ => 0⟩ (fun _ _ _ => [0, 5]) ⟨2, 3⟩ 2 1 5
      ≠ DecodeResult.inputShapeError := by
  exact ⟨by decide, by decide⟩

/-- C8 amended: `utils.greedy_decoding` performs no single-sentence
shape check and defines no `InputShapeError`; whatever the batch
dimension of the supplied encoding, the run never fails with an
input-shape error. -/
theorem C8_no_shape_check (ext : Externals)
    (predict : Encoding → List Bool → List Nat → List ℚ)
    (enc : Encoding) (bos eos fuel : Nat) :
    greedy_decoding ext predict enc bos eos fuel
      ≠ DecodeResult.inputShapeError := by
  cases hg : greedyAux ext (predict enc (List.replicate enc.seqLen true))
      eos fuel [bos] with
  | none => simp [greedy_decoding, hg]
  | some p => simp [greedy_decoding, hg]

/-- C1 counterexample: a forced corpus of one sentence with zero gold
tokens records one step (for the appended end marker) but backfills
`sentence_length = 0`: the number of recorded rows does not equal the
backfilled value. -/
theorem C1_counterexample :
    (corpusForced (fun _ => 0) 2 1 [(fun _ => [5, 0], [])]).length = 1 ∧
    ¬ (∀ r ∈ corpusForced (fun _ => 0) 2 1 [(fun _ => [5, 0], [])],
        Int.ofNat (corpusForced (fun _ => 0) 2 1 [(fun _ => [5, 0], [])]).length
          = r.sentence_length) := by
  exact ⟨by decide, by decide⟩

/-- C1 amended: for every sentence, in both the forced and the free
corpus scripts, the number of recorded rows equals the backfilled
`sentence_length` plus one — the backfilled value is the last 0-based
step index, not the row count. -/
theorem C1_rows_eq_backfill_plus_one (predict : List Nat → List ℚ)
    (ent : List ℚ → ℚ) (gold : List Nat) (maxLen bos eos : Nat)
    (h : 1 ≤ maxLen) :
    (∀ r ∈ forcedBackfilled predict ent gold bos eos,
      Int.ofNat (forcedBackfilled predict ent gold bos eos).length
        = r.sentence_length + 1) ∧
    (∀ r ∈ freeBackfilled predict ent maxLen bos eos,
      Int.ofNat (freeBackfilled predict ent maxLen bos eos).length
        = r.sentence_length + 1) := by
  obtain ⟨f1, f2, -⟩ := forcedAux_spec predict ent (gold ++ [eos]) 0 [bos]
  obtain ⟨ts, g1, g2, g3, -, -, -⟩ := freeAux_spec predict ent eos maxLen 0 [bos]
  have hfp := freeSentence_rows_pos predict ent maxLen bos eos h
  simp only [freeSentence] at hfp
  constructor
  · intro r hr
    simp only [forcedBackfilled, forcedSentence] at hr ⊢
    have hv := mem_backfilled_len _ _ r hr
    rw [hv, List.length_map, f1, f2]
    have hl : (gold ++ [eos]).length = gold.length + 1 := by simp
    simp only [Int.ofNat_eq_natCast]
    omega
  · intro r hr
    simp only [freeBackfilled, freeSentence] at hr ⊢
    have hv := mem_backfilled_len _ _ r hr
    rw [hv, List.length_map, g3]
    simp only [Int.ofNat_eq_natCast]
    omega

theorem C1_rows_eq_backfill_plus_one_witness :
    (∀ r ∈ forcedBackfilled (fun _ => [5, 0]) (fun _ => 0) [0] 2 1,
      Int.ofNat (forcedBackfilled (fun _ => [5, 0]) (fun _ => 0) [0] 2 1).length
        = r.sentence_length + 1) ∧
    (∀ r ∈ freeBackfilled (fun _ => [5, 0]) (fun _ => 0) 3 2 1,
      Int.ofNat (freeBackfilled (fun _ => [5, 0]) (fun _ => 0) 3 2 1).length
        = r.sentence_length + 1) :=
  C1_rows_eq_backfill_plus_one (fun _ => [5, 0]) (fun _ => 0) [0] 3 2 1
    (by decide)

/-- C2: the backfilled `sentence_length` of every row of a sentence
equals the final 0-based step index reached in that sentence — forced
mode: the length of the supplied gold sequence (the end marker adds the
final step); free mode: the index of the step that selected the end
marker, or `maxLen - 1` when the budget ran out first — and the corpus
frames decompose sentence by sentence, so the backfill touches exactly
the rows of the finishing sentence. -/
theorem C2_sentence_length_final_index (predict : List Nat → List ℚ)
    (ent : List ℚ → ℚ) (gold : List Nat) (maxLen bos eos : Nat)
    (sentsF : List ((List Nat → List ℚ) × List Nat))
    (sentsG : List (List Nat → List ℚ)) (h : 1 ≤ maxLen) :
    (∀ r ∈ forcedBackfilled predict ent gold bos eos,
      r.sentence_length = Int.ofNat gold.length) ∧
    corpusForced ent bos eos sentsF
      = (sentsF.map (fun s => forcedBackfilled s.1 ent s.2 bos eos)).flatten ∧
    (∀ r ∈ freeBackfilled predict ent maxLen bos eos,
      r.sentence_length
        = Int.ofNat ((freeSentence predict ent maxLen bos eos).2.1)) ∧
    (((freeSentence predict ent maxLen bos eos).1.length = maxLen ∧
        (freeSentence predict ent maxLen bos eos).2.1 = maxLen - 1) ∨
      (((freeSentence predict ent maxLen bos eos).2.2.drop 1).getLast?
          = some eos ∧
        (freeSentence predict ent maxLen bos eos).2.1
          = (freeSentence predict ent maxLen bos eos).1.length - 1)) ∧
    corpusFree ent maxLen bos eos sentsG
      = (sentsG.map
          (fun predict => freeBackfilled predict ent maxLen bos eos)).flatten := by
  obtain ⟨f1, f2, -⟩ := forcedAux_spec predict ent (gold ++ [eos]) 0 [bos]
  obtain ⟨ts, g1, g2, g3, g4, g5, g6⟩ := freeAux_spec predict ent eos maxLen 0 [bos]
  refine ⟨?_, ?_, ?_, ?_, ?_⟩
  · intro r hr
    simp only [forcedBackfilled, forcedSentence] at hr
    have hv := mem_backfilled_len _ _ r hr
    rw [hv, f2]
    have hl : (gold ++ [eos]).length = gold.length + 1 := by simp
    congr 1
    omega
  · have hj := corpusForced_join_from ent bos eos sentsF []
    simpa [corpusForced] using hj
  · intro r hr
    simp only [freeBackfilled] at hr
    exact mem_backfilled_len _ _ r hr
  · rcases g5 with g5 | g5
    · left
      refine ⟨by simpa [freeSentence] using g5, ?_⟩
      simp only [freeSentence]
      rw [g3, g5]
      omega
    · right
      refine ⟨?_, ?_⟩
      · simp only [freeSentence]
        rw [g1]
        simpa using g5
      · simp only [freeSentence]
        rw [g3]
        omega
  · have hj := corpusFree_join_from ent maxLen bos eos h sentsG []
    simpa [corpusFree] using hj

theorem C2_sentence_length_final_index_witness :
    (∀ r ∈ forcedBackfilled (fun _ => [5, 0]) (fun _ => 0) [0] 2 1,
      r.sentence_length = Int.ofNat ([0] : List Nat).length) ∧
    corpusForced (fun _ => 0) 2 1 []
      = (([] : List ((List Nat → List ℚ) × List Nat)).map
          (fun s => forcedBackfilled s.1 (fun _ => 0) s.2 2 1)).flatten ∧
    (∀ r ∈ freeBackfilled (fun _ => [5, 0]) (fun _ => 0) 3 2 1,
      r.sentence_length
        = Int.ofNat ((freeSentence (fun _ => [5, 0]) (fun _ => 0) 3 2 1).2.1)) ∧
    (((freeSentence (fun _ => [5, 0]) (fun _ => 0) 3 2 1).1.length = 3 ∧
        (freeSentence (fun _ => [5, 0]) (fun _ => 0) 3 2 1).2.1 = 3 - 1) ∨
      (((freeSentence (fun _ => [5, 0]) (fun _ => 0) 3 2 1).2.2.drop 1).getLast?
          = some 1 ∧
        (freeSentence (fun _ => [5, 0]) (fun _ => 0) 3 2 1).2.1
          = (freeSentence (fun _ => [5, 0]) (fun _ => 0) 3 2 1).1.length - 1)) ∧
    corpusFree (fun _ => 0) 3 2 1 []
      = (([] : List (List Nat → List ℚ)).map
          (fun predict => freeBackfilled predict (fun _ => 0) 3 2 1)).flatten :=
  C2_sentence_length_final_index (fun _ => [5, 0]) (fun _ => 0) [0] 3 2 1 [] []
    (by decide)

/-- C6: over a vocabulary of at least two tokens,
`utils.predict_wrong_token` returns (within its two needed argmax
iterations) a token id different from the designated gold token. -/
theorem C6_predict_wrong_token_not_gold (gold : Nat) (logits : List ℚ)
    (h : 2 ≤ logits.length) :
    ∃ res, predict_wrong_token gold logits 2 = some res ∧ res ≠ gold := by
  obtain ⟨res, hres⟩ := predict_wrong_token_returns gold logits h
  refine ⟨res, hres 2 le_rfl, ?_⟩
  exact predictWrongTokenAux_ne_gold gold 2
    (logits.map (fun (q : ℚ) => (q : WithBot ℚ))) res (hres 2 le_rfl)

theorem C6_predict_wrong_token_not_gold_witness :
    ∃ res, predict_wrong_token 0 [5, 1, 2] 2 = some res ∧ res ≠ 0 :=
  C6_predict_wrong_token_not_gold 0 [5, 1, 2] (by decide)

/-- C10: over a vocabulary of at least two tokens, the `while(True)`
loop of `utils.predict_wrong_token` terminates after at most two argmax
iterations: two units of fuel already produce the answer, and any
larger fuel returns the same token (only the gold cell is ever masked,
and after that mask the argmax cannot be the gold index again). -/
theorem C10_predict_wrong_token_terminates (gold : Nat) (logits : List ℚ)
    (h : 2 ≤ logits.length) :
    ∃ res, predict_wrong_token gold logits 2 = some res ∧
      ∀ fuel, 2 ≤ fuel → predict_wrong_token gold logits fuel = some res := by
  obtain ⟨res, hres⟩ := predict_wrong_token_returns gold logits h
  exact ⟨res, hres 2 le_rfl, hres⟩

theorem C10_predict_wrong_token_terminates_witness :
    ∃ res, predict_wrong_token 1 [5, 1, 2] 2 = some res ∧
      ∀ fuel, 2 ≤ fuel → predict_wrong_token 1 [5, 1, 2] fuel = some res :=
  C10_predict_wrong_token_terminates 1 [5, 1, 2] (by decide)

/-- C9: none of the free decoders ever returns a translation containing
the end-of-sequence index — the end marker is appended to the history
and the loop breaks before the token is added to the returned list
(greedy, ancestral-sampling and top-k-sampling loops alike). -/
theorem C9_translations_exclude_eos (ext : Externals)
    (samp : Nat → List ℚ → Nat) (r : Nat → Nat) (soft : List ℚ → List ℚ)
    (predict : List Nat → List ℚ) (eos k maxLen bos fuel : Nat)
    (gp : List Nat × List GRow)
    (h : greedyAux ext predict eos fuel [bos] = some gp) :
    eos ∉ gp.1 ∧
    eos ∉ (ancestral_sampling samp soft predict maxLen bos eos).1 ∧
    eos ∉ (top_k_sampling r soft predict maxLen bos eos k).1 := by
  refine ⟨greedyAux_no_eos ext predict eos fuel [bos] gp h, ?_, ?_⟩
  · simp only [ancestral_sampling]
    exact ancestralAux_no_eos samp soft predict eos maxLen 0 [bos]
  · simp only [top_k_sampling]
    exact topKAux_no_eos r soft predict eos k maxLen 0 [bos]

theorem C9_translations_exclude_eos_witness :
    (1 : Nat) ∉ (([], [⟨1, 5, [0, 5], [0, 5], 0⟩]) : List Nat × List GRow).1 ∧
    (1 : Nat) ∉ (ancestral_sampling (fun _ _ => 0) id (fun _ => [0, 5]) 3 2 1).1 ∧
    (1 : Nat) ∉ (top_k_sampling (fun _ => 0) id (fun _ => [0, 5]) 3 2 1 2).1 :=
  C9_translations_exclude_eos ⟨id, id, fun _ => 0⟩ (fun _ _ => 0) (fun _ => 0)
    id (fun _ => [0, 5]) 1 2 3 2 1 ([], [⟨1, 5, [0, 5], [0, 5], 0⟩]) (by decide)

/-- C5: for every (softmax) probability vector with strictly positive
entries and every `k` between 1 and the vocabulary size, a
`utils.top_k_sampling` draw extracts exactly the `k` highest-probability
entries — each extracted pair is an entry of the vector, the `k` ids are
distinct, and every extracted probability dominates every non-extracted
entry — the renormalized `k`-element distribution sums to exactly 1, and
the sampled token is always one of the `k` extracted ids. -/
theorem C5_top_k_sampling_spec (probas : List ℚ) (k r : Nat)
    (hpos : ∀ p ∈ probas, 0 < p) (hk1 : 1 ≤ k) (hk : k ≤ probas.length) :
    (top_k_step probas k r).1.length = k ∧
    (∀ pr ∈ (top_k_step probas k r).1,
      pr.1 < probas.length ∧ probas.getD pr.1 0 = pr.2) ∧
    ((top_k_step probas k r).1.map Prod.fst).Nodup ∧
    (∀ pr ∈ (top_k_step probas k r).1, ∀ l, l < probas.length →
      l ∉ (top_k_step probas k r).1.map Prod.fst →
      probas.getD l 0 ≤ pr.2) ∧
    (top_k_step probas k r).2.1.sum = 1 ∧
    (top_k_step probas k r).2.2 ∈ (top_k_step probas k r).1.map Prod.fst := by
  have hnb : k ≤ nbot (probas.map (fun (q : ℚ) => (q : WithBot ℚ))) := by
    rw [nbot_map_coe]
    exact hk
  obtain ⟨elen, eent, endp, edom⟩ :=
    top_k_extract_spec k (probas.map (fun (q : ℚ) => (q : WithBot ℚ))) hnb
  have hlenw : (probas.map (fun (q : ℚ) => (q : WithBot ℚ))).length
      = probas.length := by simp
  have hent : ∀ pr ∈ top_k_extract k
      (probas.map (fun (q : ℚ) => (q : WithBot ℚ))),
      pr.1 < probas.length ∧ probas.getD pr.1 0 = pr.2 := by
    intro pr hpr
    obtain ⟨h1, h2⟩ := eent pr hpr
    rw [hlenw] at h1
    refine ⟨h1, ?_⟩
    have h3 := getD_map_coe probas pr.1 h1
    rw [h3] at h2
    exact_mod_cast h2
  have hposE : ∀ pr ∈ top_k_extract k
      (probas.map (fun (q : ℚ) => (q : WithBot ℚ))), 0 < pr.2 := by
    intro pr hpr
    obtain ⟨h1, h2⟩ := hent pr hpr
    rw [← h2]
    exact hpos _ (getD_mem_of_lt probas pr.1 0 h1)
  simp only [top_k_step]
  refine ⟨elen, hent, endp, ?_, ?_, ?_⟩
  · intro pr hpr l hl hlnot
    have hd := edom pr hpr l (by rw [hlenw]; exact hl) hlnot
    rw [getD_map_coe probas l hl] at hd
    exact_mod_cast hd
  · have hzpos : 0 < ((top_k_extract k
        (probas.map (fun (q : ℚ) => (q : WithBot ℚ)))).map Prod.snd).sum := by
      apply List.sum_pos
      · intro x hx
        obtain ⟨pr, hpr, he⟩ := List.mem_map.mp hx
        rw [← he]
        exact hposE pr hpr
      · intro he
        have hln := congrArg List.length he
        rw [List.length_map, elen] at hln
        simp at hln
        omega
    rw [sum_map_div]
    exact div_self (ne_of_gt hzpos)
  · have hidlen : ((top_k_extract k
        (probas.map (fun (q : ℚ) => (q : WithBot ℚ)))).map Prod.fst).length
        = k := by
      rw [List.length_map, elen]
    exact getD_mem_of_lt _ _ _ (by rw [hidlen]; exact Nat.mod_lt r (by omega))

theorem C5_top_k_sampling_spec_witness :
    (top_k_step [4, 2, 1, 1] 2 3).1.length = 2 ∧
    (∀ pr ∈ (top_k_step [4, 2, 1, 1] 2 3).1,
      pr.1 < ([4, 2, 1, 1] : List ℚ).length ∧
      ([4, 2, 1, 1] : List ℚ).getD pr.1 0 = pr.2) ∧
    ((top_k_step [4, 2, 1, 1] 2 3).1.map Prod.fst).Nodup ∧
    (∀ pr ∈ (top_k_step [4, 2, 1, 1] 2 3).1,
      ∀ l, l < ([4, 2, 1, 1] : List ℚ).length →
      l ∉ (top_k_step [4, 2, 1, 1] 2 3).1.map Prod.fst →
      ([4, 2, 1, 1] : List ℚ).getD l 0 ≤ pr.2) ∧
    (top_k_step [4, 2, 1, 1] 2 3).2.1.sum = 1 ∧
    (top_k_step [4, 2, 1, 1] 2 3).2.2
      ∈ (top_k_step [4, 2, 1, 1] 2 3).1.map Prod.fst :=
  C5_top_k_sampling_spec [4, 2, 1, 1] 2 3 (by decide) (by decide)
    (by decide)
